import Mathlib

set_option autoImplicit false

/-!
Verification of the chunking engine (`src/rag/processing/chunker.py`) and the
document extraction cascade (`src/rag/data_ingestion/pdf_loader.py`,
`src/rag/data_ingestion/json_loader.py`) of the unstructured_rag repository.

Python strings are modelled as `List Char`, Python dicts of metadata as ordered
association lists over a value type that distinguishes immutable scalars from
references into a heap (so that shallow-copy aliasing is observable).
Functions that can raise or diverge return `Except ChunkErr _`; the fixed-size
sliding-window loop is given explicit fuel so that its divergence on invalid
configurations is provable.
-/

namespace RagSpec

/-- A metadata value: an immutable scalar, or a reference to a
heap-allocated nested mapping (models Python object aliasing). -/
inductive MVal where
  | scalar : Nat → MVal
  | ref : Nat → MVal
deriving DecidableEq, Repr

/-- A Python dict used for metadata: an ordered association list. -/
abbrev MDict := List (String × MVal)

/-- Python `d[k] = v` on a dict: replace the value in place if the key is
present, otherwise append the new binding at the end. -/
def setKey (d : MDict) (k : String) (v : MVal) : MDict :=
  match d with
  | [] => [(k, v)]
  | (k', v') :: rest => if k' = k then (k', v) :: rest else (k', v') :: setKey rest k v

/-- Python `d.get(k)` on an ordered dict. -/
def lookupKey (d : MDict) (k : String) : Option MVal :=
  match d with
  | [] => none
  | (k', v) :: rest => if k' = k then some v else lookupKey rest k

/-- `Chunk` from chunker.py: text plus metadata. `Chunk.__init__` stores a
shallow copy of the caller's metadata with `chunk_index` injected; in this
pure model the shallow copy is the same association list (references shared),
with the `chunk_index` binding set. -/
structure Chunk where
  text : List Char
  metadata : MDict
deriving DecidableEq, Repr

/-- `Chunk.__init__(text, metadata, chunk_index)`:
`self.metadata = metadata.copy(); self.metadata["chunk_index"] = chunk_index`. -/
def mkChunk (text : List Char) (metadata : MDict) (chunk_index : Nat) : Chunk :=
  { text := text, metadata := setKey metadata "chunk_index" (.scalar chunk_index) }

/-- The chunk index recorded in a chunk's metadata. -/
def chunkIdx (c : Chunk) : Option MVal :=
  lookupKey c.metadata "chunk_index"

/-- Python `str.strip()`: remove leading and trailing whitespace. -/
def pyStrip (s : List Char) : List Char :=
  ((s.dropWhile Char.isWhitespace).reverse.dropWhile Char.isWhitespace).reverse

/-- Failure modes of the chunking engine: the fixed-size loop can fail to
terminate (step `chunk_size - chunk_overlap ≤ 0`), `str.split('')` raises
`ValueError: empty separator`, and `range(0, n, step)` raises
`ValueError` when `step ≤ 0`. -/
inductive ChunkErr where
  | nonTermination
  | emptySeparator
  | rangeStepZero
deriving DecidableEq, Repr

/-- The `while start < len(text)` loop of `chunk_text_fixed_size`, with
explicit fuel. Each iteration emits `text[start : start + chunk_size]` and
advances `start += (chunk_size - chunk_overlap)` (natural subtraction: a
non-positive Python step advances `start` by 0 here; in both cases the loop
condition `start < len(text)` stays true forever). `none` = fuel exhausted. -/
def fixedLoop (t : List Char) (chunk_size chunk_overlap : Nat) (metadata : MDict) :
    Nat → Nat → Nat → Option (List Chunk)
  | _, _, 0 => none
  | start, chunk_index, fuel + 1 =>
    if start < t.length then
      match fixedLoop t chunk_size chunk_overlap metadata
          (start + (chunk_size - chunk_overlap)) (chunk_index + 1) fuel with
      | some rest => some (mkChunk ((t.drop start).take chunk_size) metadata chunk_index :: rest)
      | none => none
    else
      some []

/-- `chunk_text_fixed_size(text, chunk_size, chunk_overlap, metadata)`:
strip the text, return `[]` if empty, else run the sliding-window loop.
Fuel `len(text) + 1` is sufficient whenever the Python loop terminates
(step ≥ 1 consumes at most one unit of fuel per character). -/
def chunkTextFixedSize (text : List Char) (chunk_size chunk_overlap : Nat)
    (metadata : MDict) : Except ChunkErr (List Chunk) :=
  let t := pyStrip text
  if t = [] then .ok []
  else
    match fixedLoop t chunk_size chunk_overlap metadata 0 0 (t.length + 1) with
    | some cs => .ok cs
    | none => .error .nonTermination

example : chunkTextFixedSize "abcdef".toList 3 0 [] =
    .ok [mkChunk "abc".toList [] 0, mkChunk "def".toList [] 1] := by rfl

example : chunkTextFixedSize "abcde".toList 3 1 [] =
    .ok [mkChunk "abc".toList [] 0, mkChunk "cde".toList [] 1,
         mkChunk "e".toList [] 2] := by rfl

example : chunkTextFixedSize "  ab  ".toList 3 0 [] = .ok [mkChunk "ab".toList [] 0] := by
  rfl

theorem fixedLoop_stall (fuel chunk_index : Nat) :
    fixedLoop "ab".toList 2 2 [] 0 chunk_index fuel = none := by
  induction fuel generalizing chunk_index with
  | zero => rfl
  | succ n ih =>
    show fixedLoop "ab".toList 2 2 [] 0 chunk_index (n + 1) = none
    rw [fixedLoop]
    simp only [ih]
    rfl

/-- C1: the claim that a configuration with `chunk_overlap ≥ chunk_size` is
clamped or rejected before segmentation fails: `chunk_text_fixed_size`
performs no validation, and with `chunk_size = chunk_overlap = 2` on the
text `"ab"` the sliding-window loop makes no progress (`start` stays `0`),
so it never terminates — for every amount of fuel the loop produces no
result, and the engine never returns. -/
theorem c1_fixed_size_diverges_on_invalid_config :
    (∀ fuel chunk_index : Nat,
        fixedLoop "ab".toList 2 2 [] 0 chunk_index fuel = none) ∧
    chunkTextFixedSize "ab".toList 2 2 [] = .error .nonTermination := by
  refine ⟨fun fuel chunk_index => fixedLoop_stall fuel chunk_index, ?_⟩
  rfl

theorem lookupKey_setKey (d : MDict) (k : String) (v : MVal) :
    lookupKey (setKey d k v) k = some v := by
  induction d with
  | nil => simp [setKey, lookupKey]
  | cons p rest ih =>
    obtain ⟨k', v'⟩ := p
    by_cases h : k' = k
    · simp [setKey, lookupKey, h]
    · simp [setKey, lookupKey, h, ih]

theorem chunkIdx_mkChunk (text : List Char) (md : MDict) (i : Nat) :
    chunkIdx (mkChunk text md i) = some (.scalar i) := by
  simp [chunkIdx, mkChunk, lookupKey_setKey]

/-- The texts of a chunk list, concatenated. -/
def joinTexts (l : List Chunk) : List Char :=
  (l.map Chunk.text).flatten

/-- The chunk indices recorded in a chunk list's metadata. -/
def idxList (l : List Chunk) : List (Option MVal) :=
  l.map chunkIdx

/-- The expected sequential index metadata for `n` chunks starting at `start`. -/
def seqIdxFrom (start n : Nat) : List (Option MVal) :=
  (List.range' start n).map (fun i => some (.scalar i))

theorem seqIdxFrom_succ (start n : Nat) :
    seqIdxFrom start (n + 1) = some (.scalar start) :: seqIdxFrom (start + 1) n := by
  simp [seqIdxFrom, List.range'_succ]

theorem seqIdxFrom_append (start m n : Nat) :
    seqIdxFrom start (m + n) = seqIdxFrom start m ++ seqIdxFrom (start + m) n := by
  simp only [seqIdxFrom, ← List.map_append]
  rw [Nat.add_comm m n]
  have h := List.range'_append start m n 1
  rw [one_mul] at h
  exact congrArg _ h.symm

/-- Whenever the fixed-size loop returns, its chunk indices are
sequential from the starting index. -/
theorem fixedLoop_idx (t : List Char) (size overlap : Nat) (md : MDict) :
    ∀ (fuel start ci : Nat) (l : List Chunk),
      fixedLoop t size overlap md start ci fuel = some l →
      idxList l = seqIdxFrom ci l.length := by
  intro fuel
  induction fuel with
  | zero => intro start ci l h; exact absurd h (by simp [fixedLoop])
  | succ n ih =>
    intro start ci l h
    rw [fixedLoop] at h
    by_cases hlt : start < t.length
    · rw [if_pos hlt] at h
      cases hrec : fixedLoop t size overlap md (start + (size - overlap)) (ci + 1) n with
      | none => rw [hrec] at h; exact absurd h (by simp)
      | some rest =>
        rw [hrec] at h
        cases h
        have := ih _ _ _ hrec
        simp only [idxList, List.map_cons, List.length_cons, seqIdxFrom_succ,
          chunkIdx_mkChunk]
        rw [← this]
        rfl
    · rw [if_neg hlt] at h
      cases h
      rfl

/-- With zero overlap and positive chunk size, given enough fuel the
fixed-size loop succeeds, its chunks concatenate to the tail of the text
from `start`, and it emits `ceil((len - start) / size)` chunks. -/
theorem fixedLoop_zero (t : List Char) (size : Nat) (md : MDict) (hs : 0 < size) :
    ∀ (fuel start ci : Nat), t.length - start < fuel →
      ∃ l, fixedLoop t size 0 md start ci fuel = some l ∧
        joinTexts l = t.drop start ∧
        l.length = (t.length - start + size - 1) / size := by
  intro fuel
  induction fuel with
  | zero => intro start ci h; omega
  | succ n ih =>
    intro start ci hfuel
    by_cases hlt : start < t.length
    · have hstep : t.length - (start + size) < n := by omega
      obtain ⟨l, hl, hjoin, hlen⟩ := ih (start + size) (ci + 1) hstep
      refine ⟨mkChunk ((t.drop start).take size) md ci :: l, ?_, ?_, ?_⟩
      · rw [fixedLoop, if_pos hlt]
        have : size - 0 = size := by omega
        rw [this, hl]
      · show (t.drop start).take size ++ joinTexts l = t.drop start
        rw [hjoin]
        have : t.drop (start + size) = (t.drop start).drop size := by
          rw [List.drop_drop]
        rw [this, List.take_append_drop]
      · show l.length + 1 = (t.length - start + size - 1) / size
        rw [hlen]
        rcases Nat.lt_or_ge (t.length - start) size with hcase | hcase
        · have h1 : t.length - (start + size) = 0 := by omega
          have h2 : t.length - start + size - 1 = (t.length - start - 1) + size := by
            omega
          rw [h1, h2, Nat.add_div_right _ hs, Nat.zero_add,
            Nat.div_eq_of_lt (by omega), Nat.div_eq_of_lt (by omega)]
        · have h1 : t.length - (start + size) + size - 1 = t.length - start - 1 := by
            omega
          have h2 : t.length - start + size - 1 = (t.length - start - 1) + size := by
            omega
          rw [h1, h2, Nat.add_div_right _ hs]
    · refine ⟨[], ?_, ?_, ?_⟩
      · rw [fixedLoop, if_neg hlt]
      · show ([] : List Char) = t.drop start
        rw [List.drop_eq_nil_of_le (by omega)]
      · show 0 = (t.length - start + size - 1) / size
        have : t.length - start = 0 := by omega
        rw [this, Nat.zero_add, Nat.div_eq_of_lt (by omega)]

/-- C6 as stated is false: the text is stripped before segmentation, so for
the non-empty text `" a"` (with `chunk_size = 4`, `chunk_overlap = 0`) the
single emitted chunk is `"a"` and the concatenation of all chunk texts is
`"a" ≠ " a"`: the original text is not reconstructed exactly. -/
theorem c6_counterexample :
    chunkTextFixedSize " a".toList 4 0 [] = .ok [mkChunk "a".toList [] 0] ∧
    joinTexts [mkChunk "a".toList [] 0] ≠ " a".toList :=
  ⟨rfl, by decide⟩

/-- C6 amended: for every text and every positive `chunk_size`, fixed-size
chunking with `chunk_overlap = 0` produces `ceil(len(strip(text))/chunk_size)`
chunks whose concatenation equals `strip(text)` (the stripped text, which is
the original text whenever the text carries no leading/trailing whitespace). -/
theorem c6_fixed_size_zero_overlap_reconstruction (text : List Char) (size : Nat)
    (md : MDict) (hs : 0 < size) :
    Except.map joinTexts (chunkTextFixedSize text size 0 md) = .ok (pyStrip text) ∧
    Except.map List.length (chunkTextFixedSize text size 0 md) =
      .ok (((pyStrip text).length + size - 1) / size) := by
  unfold chunkTextFixedSize
  by_cases hempty : pyStrip text = []
  · simp only [hempty, if_pos rfl]
    constructor
    · show Except.map joinTexts (.ok []) = .ok ([] : List Char)
      rfl
    · show Except.map List.length (.ok ([] : List Chunk)) = .ok ((0 + size - 1) / size)
      have : (0 + size - 1) / size = 0 := by
        rw [Nat.zero_add, Nat.div_eq_of_lt (by omega)]
      rw [this]
      rfl
  · obtain ⟨l, hl, hjoin, hlen⟩ :=
      fixedLoop_zero (pyStrip text) size md hs ((pyStrip text).length + 1) 0 0 (by omega)
    simp only [if_neg hempty, hl]
    rw [List.drop_zero] at hjoin
    rw [Nat.sub_zero] at hlen
    exact ⟨by simp [Except.map, hjoin], by simp [Except.map, hlen]⟩

/-- Witness for `c6_fixed_size_zero_overlap_reconstruction` at
`text = "abcdef"`, `chunk_size = 4`. -/
theorem c6_witness :
    Except.map joinTexts (chunkTextFixedSize "abcdef".toList 4 0 []) =
      .ok (pyStrip "abcdef".toList) ∧
    Except.map List.length (chunkTextFixedSize "abcdef".toList 4 0 []) =
      .ok (((pyStrip "abcdef".toList).length + 4 - 1) / 4) :=
  c6_fixed_size_zero_overlap_reconstruction "abcdef".toList 4 [] (by decide)

/-! ### The PDF extraction cascade (`src/rag/data_ingestion/pdf_loader.py`) -/

/-- A PDF extraction stage's returned value: `(text, metadata)`. An
`Option PdfResult` models one stage's outcome for a given document:
`none` means the stage raised an exception (or its library was
unavailable), `some r` that it returned `r`. -/
structure PdfResult where
  text : List Char
  metadata : MDict
deriving DecidableEq, Repr

/-- The quality gate of `load_pdf`: `if text and len(text.strip()) > 100`. -/
def meaningful (t : List Char) : Bool :=
  decide (t ≠ []) && decide (100 < (pyStrip t).length)

/-- Whether a stage's outcome passes the quality gate (a raising stage
never does). -/
def stageAccepted (o : Option PdfResult) : Bool :=
  match o with
  | some r => meaningful r.text
  | none => false

/-- `load_pdf_with_pypdf`: return PyPDF's extraction unconditionally (no
quality gate); on `ImportError` or any other exception, fall back to
`load_pdf_with_ocr` — whose outcome, for the same file, is the same `ocr`
outcome again (and if that call raises, the exception propagates, modelled
by `none`). -/
def loadPdfWithPypdf (pyp ocr : Option PdfResult) : Option PdfResult :=
  match pyp with
  | some r => some r
  | none => ocr

/-- `load_pdf`: try OCR first, accept iff the quality gate passes; then the
UnstructuredPDFLoader stage under the same gate; finally
`load_pdf_with_pypdf` as a last resort, returned unconditionally. A raising
stage is treated as having produced nothing. -/
def loadPdf (ocr unst pyp : Option PdfResult) : Option PdfResult :=
  match ocr with
  | some r =>
    if meaningful r.text then some r
    else
      match unst with
      | some r2 => if meaningful r2.text then some r2 else loadPdfWithPypdf pyp ocr
      | none => loadPdfWithPypdf pyp ocr
  | none =>
    match unst with
    | some r2 => if meaningful r2.text then some r2 else loadPdfWithPypdf pyp ocr
    | none => loadPdfWithPypdf pyp ocr

/-- The three extraction stages of the PDF pipeline. -/
inductive Stage where
  | ocr
  | unstructured
  | pypdf
deriving DecidableEq, BEq, Repr

/-- The ordered list of stage invocations performed by `load_pdf`: OCR runs
first; the Unstructured stage runs unless OCR's output passed the gate; the
PyPDF stage runs unless a gated stage passed; and when the PyPDF stage
raises (or its library is unavailable), `load_pdf_with_pypdf` invokes the
OCR stage a second time. -/
def loadPdfTrace (ocr unst pyp : Option PdfResult) : List Stage :=
  [.ocr] ++
    if stageAccepted ocr then []
    else
      [.unstructured] ++
        if stageAccepted unst then []
        else [.pypdf] ++ (match pyp with | some _ => [] | none => [.ocr])

theorem pyStrip_length_le (t : List Char) : (pyStrip t).length ≤ t.length := by
  unfold pyStrip
  calc ((t.dropWhile Char.isWhitespace).reverse.dropWhile Char.isWhitespace).reverse.length
      = ((t.dropWhile Char.isWhitespace).reverse.dropWhile Char.isWhitespace).length := by
        rw [List.length_reverse]
    _ ≤ (t.dropWhile Char.isWhitespace).reverse.length :=
        (List.dropWhile_sublist _).length_le
    _ = (t.dropWhile Char.isWhitespace).length := by rw [List.length_reverse]
    _ ≤ t.length := (List.dropWhile_sublist _).length_le

/-- C2: in the PDF extraction cascade, a stage's output passes the quality
gate exactly when its trimmed length is strictly greater than 100
characters, and when the OCR stage's output passes the gate its result is
returned immediately: whatever the later stages would return, they are not
invoked (the trace stops at OCR). Likewise, when OCR fails the gate and the
Unstructured stage passes it, the PyPDF stage is never invoked. -/
theorem c2_quality_gate_short_circuit :
    (∀ t : List Char, meaningful t = true ↔ 100 < (pyStrip t).length) ∧
    (∀ (r : PdfResult) (unst pyp : Option PdfResult), meaningful r.text = true →
      loadPdf (some r) unst pyp = some r ∧
      loadPdfTrace (some r) unst pyp = [.ocr]) ∧
    (∀ (ocr : Option PdfResult) (r2 : PdfResult) (pyp : Option PdfResult),
      stageAccepted ocr = false → meaningful r2.text = true →
      loadPdf ocr (some r2) pyp = some r2 ∧
      loadPdfTrace ocr (some r2) pyp = [.ocr, .unstructured]) := by
  refine ⟨?_, ?_, ?_⟩
  · intro t
    constructor
    · intro h
      simp only [meaningful, Bool.and_eq_true, decide_eq_true_eq] at h
      exact h.2
    · intro h
      simp only [meaningful, Bool.and_eq_true, decide_eq_true_eq]
      refine ⟨?_, h⟩
      intro ht
      rw [ht] at h
      simp [pyStrip] at h
  · intro r unst pyp hm
    constructor
    · simp [loadPdf, hm]
    · simp [loadPdfTrace, stageAccepted, hm]
  · intro ocr r2 pyp hfail hm
    constructor
    · cases ocr with
      | none => simp [loadPdf, hm]
      | some r =>
        have : meaningful r.text = false := by
          simpa [stageAccepted] using hfail
        simp [loadPdf, this, hm]
    · have h2 : stageAccepted (some r2) = true := by simp [stageAccepted, hm]
      simp [loadPdfTrace, hfail, h2]

set_option maxRecDepth 4096 in
/-- Witness for `c2_quality_gate_short_circuit`: a first stage whose text
has trimmed length 300 is returned as-is and the second stage never runs. -/
theorem c2_witness :
    loadPdf (some ⟨List.replicate 300 'a', []⟩) (some ⟨"other text".toList, []⟩) none =
      some ⟨List.replicate 300 'a', []⟩ ∧
    loadPdfTrace (some ⟨List.replicate 300 'a', []⟩) (some ⟨"other text".toList, []⟩) none =
      [.ocr] :=
  c2_quality_gate_short_circuit.2.1 ⟨List.replicate 300 'a', []⟩
    (some ⟨"other text".toList, []⟩) none (by decide)

/-- C7 as stated is false: when the OCR and Unstructured stages both fail the
quality gate and the PyPDF stage raises, `load_pdf_with_pypdf` falls back to
OCR, so the OCR stage is invoked twice for the same document. -/
theorem c7_counterexample :
    loadPdfTrace (some ⟨"short".toList, []⟩) (some ⟨"short".toList, []⟩) none =
      [.ocr, .unstructured, .pypdf, .ocr] ∧
    (loadPdfTrace (some ⟨"short".toList, []⟩) (some ⟨"short".toList, []⟩) none).count
      .ocr = 2 :=
  ⟨rfl, rfl⟩

/-- C7 amended: the cascade is an ordered fallback chain in which the
Unstructured and PyPDF stages each run at most once and the OCR stage at
most twice; the only stage ever re-invoked is OCR, and only as the final
fallback when the PyPDF stage raises (the four possible invocation traces
are characterized exactly). -/
theorem c7_stage_invocations (ocr unst pyp : Option PdfResult) :
    ((loadPdfTrace ocr unst pyp).count .unstructured ≤ 1 ∧
     (loadPdfTrace ocr unst pyp).count .pypdf ≤ 1 ∧
     (loadPdfTrace ocr unst pyp).count .ocr ≤ 2) ∧
    (loadPdfTrace ocr unst pyp = [.ocr] ∨
     loadPdfTrace ocr unst pyp = [.ocr, .unstructured] ∨
     (loadPdfTrace ocr unst pyp = [.ocr, .unstructured, .pypdf] ∧ pyp.isSome = true) ∨
     (loadPdfTrace ocr unst pyp = [.ocr, .unstructured, .pypdf, .ocr] ∧ pyp = none)) := by
  unfold loadPdfTrace
  cases h1 : stageAccepted ocr with
  | true => constructor <;> simp <;> decide
  | false =>
    cases h2 : stageAccepted unst with
    | true => constructor <;> simp <;> decide
    | false =>
      cases pyp with
      | some r => constructor <;> simp <;> decide
      | none => constructor <;> simp <;> decide

/-! ### Metadata aliasing: `Chunk.__init__` uses `metadata.copy()`, a
shallow copy. Nested container values are shared by reference between the
caller's dict and every chunk. The heap makes this aliasing observable. -/

/-- A heap of nested metadata mappings; a reference `MVal.ref a` points at
index `a`. -/
abbrev Heap := List MDict

/-- A fully resolved metadata value as seen by a reader that follows
references through the heap (fuel bounds the depth; `dangling` marks a bad
address or exhausted fuel). -/
inductive MTree where
  | scalar : Nat → MTree
  | node : List (String × MTree) → MTree
  | dangling : MTree
deriving Repr

/-- The first scalar inside a node: a probe used to distinguish resolved
metadata trees. -/
def firstScalarInNode : MTree → Option Nat
  | .node ((_, .scalar n) :: _) => some n
  | _ => none

/-- Probe the first entry of a resolved metadata dict. -/
def probeDict (l : List (String × MTree)) : Option Nat :=
  match l with
  | (_, t) :: _ => firstScalarInNode t
  | [] => none

/-- Resolve one metadata value against the heap. -/
def resolveVal (h : Heap) : Nat → MVal → MTree
  | _, .scalar n => .scalar n
  | 0, .ref _ => .dangling
  | fuel + 1, .ref a =>
    match h.get? a with
    | some d => .node (d.map (fun p => (p.1, resolveVal h fuel p.2)))
    | none => .dangling

/-- Resolve a whole metadata dict against the heap: the observable content
of a chunk's metadata. -/
def resolveDict (h : Heap) (fuel : Nat) (d : MDict) : List (String × MTree) :=
  d.map (fun p => (p.1, resolveVal h fuel p.2))

/-- Python `d[key][k2] = v`: mutate, through dict `d`, the nested mapping
that `d[key]` references (a no-op if `d[key]` is not a reference). -/
def mutateThrough (h : Heap) (d : MDict) (key k2 : String) (v : MVal) : Heap :=
  match lookupKey d key with
  | some (.ref a) => h.set a (setKey (h.getD a []) k2 v)
  | _ => h

/-- `v.isScalar`: the metadata value is an immutable scalar, not a
reference to a nested container. -/
def MVal.isScalar : MVal → Bool
  | .scalar _ => true
  | .ref _ => false

example :
    mutateThrough [[("x", .scalar 1)]]
      (mkChunk "t".toList [("source", .ref 0)] 0).metadata "source" "x" (.scalar 2) =
    [[("x", .scalar 2)]] := by decide

/-- C9 as stated is false: `metadata.copy()` is a shallow copy, so a nested
mapping referenced from the caller-supplied metadata is shared between all
chunks. Concretely, with caller metadata `{"source": <ref to {"x": 1}>}`,
mutating `x` through chunk 0's metadata (`chunk0.metadata["source"]["x"] = 2`)
changes the observable metadata of chunk 1 and of the caller's original
mapping. -/
theorem c9_counterexample :
    (resolveDict
        (mutateThrough [[("x", .scalar 1)]]
          (mkChunk "t".toList [("source", .ref 0)] 0).metadata "source" "x" (.scalar 2))
        2 (mkChunk "u".toList [("source", .ref 0)] 1).metadata ≠
      resolveDict [[("x", .scalar 1)]] 2
        (mkChunk "u".toList [("source", .ref 0)] 1).metadata) ∧
    (resolveDict
        (mutateThrough [[("x", .scalar 1)]]
          (mkChunk "t".toList [("source", .ref 0)] 0).metadata "source" "x" (.scalar 2))
        2 [("source", .ref 0)] ≠
      resolveDict [[("x", .scalar 1)]] 2 [("source", .ref 0)]) := by
  constructor
  · intro heq
    exact absurd (congrArg probeDict heq) (by decide)
  · intro heq
    exact absurd (congrArg probeDict heq) (by decide)

theorem lookupKey_setKey_ne (d : MDict) (k k' : String) (v : MVal) (h : k' ≠ k) :
    lookupKey (setKey d k' v) k = lookupKey d k := by
  induction d with
  | nil => simp [setKey, lookupKey, h]
  | cons p rest ih =>
    obtain ⟨k0, v0⟩ := p
    by_cases h0 : k0 = k'
    · subst h0
      simp [setKey, lookupKey, h]
    · simp only [setKey, if_neg h0, lookupKey]
      by_cases h1 : k0 = k
      · simp [h1]
      · simp [h1, ih]

theorem resolveVal_scalar_heap_irrelevant (h h' : Heap) (fuel fuel' : Nat) (v : MVal)
    (hs : v.isScalar = true) : resolveVal h fuel v = resolveVal h' fuel' v := by
  cases v with
  | scalar n => cases fuel <;> cases fuel' <;> rfl
  | ref a => simp [MVal.isScalar] at hs

theorem setKey_scalarOnly (d : MDict) (k : String) (n : Nat)
    (h : ∀ p ∈ d, MVal.isScalar p.2 = true) :
    ∀ p ∈ setKey d k (.scalar n), MVal.isScalar p.2 = true := by
  induction d with
  | nil =>
    intro p hp
    simp [setKey] at hp
    subst hp
    rfl
  | cons q rest ih =>
    obtain ⟨k0, v0⟩ := q
    intro p hp
    by_cases h0 : k0 = k
    · simp only [setKey, if_pos h0] at hp
      rcases List.mem_cons.1 hp with h1 | h1
      · subst h1; rfl
      · exact h p (List.mem_cons_of_mem _ h1)
    · simp only [setKey, if_neg h0] at hp
      rcases List.mem_cons.1 hp with h1 | h1
      · subst h1
        exact h (k0, v0) (List.mem_cons_self _ _)
      · exact ih (fun q hq => h q (List.mem_cons_of_mem _ hq)) p h1

/-- C9 amended: each chunk's metadata is a *shallow* copy of the
caller-supplied metadata with `chunk_index` injected: every key other than
`chunk_index` maps to the very same value object as in the caller's dict,
and `chunk_index` maps to the chunk's index. Consequently, when the
caller-supplied metadata holds only scalar values, no heap mutation is ever
observable in a chunk's metadata (top-level isolation); but nested
container values are shared by reference, so mutating one chunk's nested
metadata is observable in every other chunk and in the caller's mapping
(see the counterexample). -/
theorem c9_shallow_copy_semantics (text : List Char) (md : MDict) (i : Nat) :
    (∀ k : String, k ≠ "chunk_index" →
      lookupKey (mkChunk text md i).metadata k = lookupKey md k) ∧
    lookupKey (mkChunk text md i).metadata "chunk_index" = some (.scalar i) ∧
    ((∀ p ∈ md, MVal.isScalar p.2 = true) → ∀ (h h' : Heap) (fuel fuel' : Nat),
      resolveDict h fuel (mkChunk text md i).metadata =
        resolveDict h' fuel' (mkChunk text md i).metadata) := by
  refine ⟨?_, ?_, ?_⟩
  · intro k hk
    exact lookupKey_setKey_ne md k "chunk_index" _ (fun h => hk h.symm)
  · exact lookupKey_setKey md "chunk_index" _
  · intro hscalar h h' fuel fuel'
    have hall := setKey_scalarOnly md "chunk_index" i hscalar
    unfold resolveDict
    apply List.map_congr_left
    intro p hp
    have := resolveVal_scalar_heap_irrelevant h h' fuel fuel' p.2 (hall p hp)
    rw [this]

/-- Witness for `c9_shallow_copy_semantics` at concrete scalar-only
metadata `{"page": 7}`, chunk index 3. -/
theorem c9_witness :
    lookupKey (mkChunk "t".toList [("page", .scalar 7)] 3).metadata "page" =
      some (.scalar 7) ∧
    lookupKey (mkChunk "t".toList [("page", .scalar 7)] 3).metadata "chunk_index" =
      some (.scalar 3) ∧
    resolveDict [[("x", .scalar 1)]] 2
        (mkChunk "t".toList [("page", .scalar 7)] 3).metadata =
      resolveDict [[("x", .scalar 2)]] 2
        (mkChunk "t".toList [("page", .scalar 7)] 3).metadata := by
  have h := c9_shallow_copy_semantics "t".toList [("page", .scalar 7)] 3
  refine ⟨?_, h.2.1, ?_⟩
  · rw [h.1 "page" (by decide)]
    rfl
  · exact h.2.2 (by decide) [[("x", .scalar 1)]] [[("x", .scalar 2)]] 2 2

/-! ### The JSON-to-text renderer (`src/rag/data_ingestion/json_loader.py`) -/

/-- A JSON primitive (anything that is not a dict or a list). -/
inductive JPrim where
  | jnull
  | jbool : Bool → JPrim
  | jint : Int → JPrim
  | jstr : String → JPrim

/-- Python `str(item)` on a JSON primitive. -/
def primStr : JPrim → String
  | .jnull => "None"
  | .jbool true => "True"
  | .jbool false => "False"
  | .jint n => toString n
  | .jstr s => s

mutual
/-- A JSON value: primitive, array, or object. -/
inductive JVal where
  | prim : JPrim → JVal
  | arr : JList → JVal
  | obj : JObj → JVal
/-- A JSON array. -/
inductive JList where
  | nil : JList
  | cons : JVal → JList → JList
/-- A JSON object: ordered key/value entries. -/
inductive JObj where
  | nil : JObj
  | cons : String → JVal → JObj → JObj
end

/-- `isinstance(value, (dict, list))`. -/
def JVal.isContainer : JVal → Bool
  | .prim _ => false
  | .arr _ => true
  | .obj _ => true

/-- `len(data)` for a JSON array. -/
def JList.len : JList → Nat
  | .nil => 0
  | .cons _ rest => rest.len + 1

/-- `all(not isinstance(item, (dict, list)) for item in data)`. -/
def JList.allPrim : JList → Bool
  | .nil => true
  | .cons v rest => !v.isContainer && rest.allPrim

/-- `", ".join(str(item) for item in data)` (in the code this only runs on
arrays whose items are all primitives; a container item, unreachable under
that guard, contributes its `Item`-free placeholder `""`). -/
def joinComma : JList → String
  | .nil => ""
  | .cons v .nil => (match v with | .prim p => primStr p | _ => "")
  | .cons v (.cons w rest) =>
    (match v with | .prim p => primStr p | _ => "") ++ ", " ++ joinComma (.cons w rest)

mutual
/-- `json_to_text(data, prefix, max_depth, current_depth)`: at or beyond the
depth limit emit the truncation marker; objects render entries as
`key: value` lines, recursing with a two-space deeper indent for container
values; arrays of at most 10 primitive items condense to one bracketed
line, other arrays render `Item i` lines; primitives render on one line. -/
def jsonToText : JVal → String → Nat → Nat → String
  | data, pfx, maxDepth, curDepth =>
    if maxDepth ≤ curDepth then
      pfx ++ "[Nested content truncated due to depth limit]\n"
    else
      match data with
      | .obj o => objToText o pfx maxDepth curDepth
      | .arr l =>
        if l.len ≤ 10 ∧ l.allPrim = true then
          pfx ++ "[" ++ joinComma l ++ "]\n"
        else
          arrToText l 0 pfx maxDepth curDepth
      | .prim p => pfx ++ primStr p ++ "\n"

/-- The `for key, value in data.items()` loop of `json_to_text`. -/
def objToText : JObj → String → Nat → Nat → String
  | .nil, _, _, _ => ""
  | .cons k v rest, pfx, maxDepth, curDepth =>
    (match v with
     | .prim p => pfx ++ k ++ ": " ++ primStr p ++ "\n"
     | _ => pfx ++ k ++ ":\n" ++ jsonToText v (pfx ++ "  ") maxDepth (curDepth + 1)) ++
    objToText rest pfx maxDepth curDepth

/-- The `for i, item in enumerate(data)` loop of `json_to_text`. -/
def arrToText : JList → Nat → String → Nat → Nat → String
  | .nil, _, _, _, _ => ""
  | .cons v rest, i, pfx, maxDepth, curDepth =>
    (match v with
     | .prim p => pfx ++ "Item " ++ toString i ++ ": " ++ primStr p ++ "\n"
     | _ => pfx ++ "Item " ++ toString i ++ ":\n" ++
            jsonToText v (pfx ++ "  ") maxDepth (curDepth + 1)) ++
    arrToText rest (i + 1) pfx maxDepth curDepth
end

/-- `load_json` calls `json_to_text(data)` with the defaults
`prefix = ""`, `max_depth = 5`, `current_depth = 0`. -/
def jsonToTextDefault (data : JVal) : String :=
  jsonToText data "" 5 0

example :
    jsonToTextDefault (.arr (.cons (.prim (.jint 1))
      (.cons (.prim (.jint 2)) (.cons (.prim (.jstr "x")) .nil)))) = "[1, 2, x]\n" := rfl

example :
    jsonToTextDefault (.obj (.cons "a" (.prim (.jint 1))
      (.cons "b" (.obj (.cons "c" (.prim (.jbool true)) .nil)) .nil))) =
    "a: 1\nb:\n  c: True\n" := rfl

/-- C8: the JSON renderer condenses every array of at most 10 primitive
(non-container) items onto one bracketed line; it renders an object entry
whose value is a container as a `key:` line followed by the value rendered
with a two-space deeper indent at the next depth; and for every value at or
beyond the maximum depth it emits the explicit truncation marker line
instead of recursing. -/
theorem c8_json_renderer :
    (∀ (l : JList) (pfx : String) (maxDepth curDepth : Nat),
      curDepth < maxDepth → l.len ≤ 10 → l.allPrim = true →
      jsonToText (.arr l) pfx maxDepth curDepth = pfx ++ "[" ++ joinComma l ++ "]\n") ∧
    (∀ (k : String) (v : JVal) (rest : JObj) (pfx : String) (maxDepth curDepth : Nat),
      curDepth < maxDepth → v.isContainer = true →
      jsonToText (.obj (.cons k v rest)) pfx maxDepth curDepth =
        pfx ++ k ++ ":\n" ++ jsonToText v (pfx ++ "  ") maxDepth (curDepth + 1) ++
          objToText rest pfx maxDepth curDepth) ∧
    (∀ (data : JVal) (pfx : String) (maxDepth curDepth : Nat),
      maxDepth ≤ curDepth →
      jsonToText data pfx maxDepth curDepth =
        pfx ++ "[Nested content truncated due to depth limit]\n") := by
  refine ⟨?_, ?_, ?_⟩
  · intro l pfx maxDepth curDepth hdepth hlen hprim
    rw [jsonToText]
    rw [if_neg (by omega), if_pos ⟨hlen, hprim⟩]
  · intro k v rest pfx maxDepth curDepth hdepth hcont
    rw [jsonToText, if_neg (by omega)]
    show objToText (.cons k v rest) pfx maxDepth curDepth = _
    cases v with
    | prim p => simp [JVal.isContainer] at hcont
    | arr l =>
      rw [objToText, String.append_assoc]
      exact fun p h => JVal.noConfusion h
    | obj o =>
      rw [objToText, String.append_assoc]
      exact fun p h => JVal.noConfusion h
  · intro data pfx maxDepth curDepth hdepth
    rw [jsonToText.eq_def]
    simp only [if_pos hdepth]

/-- Witness for `c8_json_renderer`: a 3-item primitive array condenses at
depth 0; a nested object entry renders indented at depth 1; any value at
the default maximum depth 5 renders as the truncation marker. -/
theorem c8_witness :
    jsonToText (.arr (.cons (.prim (.jint 1)) (.cons (.prim (.jint 2))
        (.cons (.prim (.jstr "x")) .nil)))) "" 5 0 = "[1, 2, x]\n" ∧
    jsonToText (.obj (.cons "b" (.obj (.cons "c" (.prim (.jbool true)) .nil)) .nil))
        "" 5 0 = "b:\n" ++ jsonToText (.obj (.cons "c" (.prim (.jbool true)) .nil))
          "  " 5 1 ++ objToText .nil "" 5 0 ∧
    jsonToText (.prim .jnull) "          " 5 5 =
      "          " ++ "[Nested content truncated due to depth limit]\n" := by
  refine ⟨?_, ?_, ?_⟩
  · have h := c8_json_renderer.1 (.cons (.prim (.jint 1)) (.cons (.prim (.jint 2))
      (.cons (.prim (.jstr "x")) .nil))) "" 5 0 (by omega) (by decide) (by decide)
    rw [h]
    rfl
  · have h := c8_json_renderer.2.1 "b" (.obj (.cons "c" (.prim (.jbool true)) .nil))
      .nil "" 5 0 (by omega) (by decide)
    simpa using h
  · exact c8_json_renderer.2.2 (.prim .jnull) "          " 5 5 (by omega)

/-! ### The paragraph strategy (`chunk_text_by_paragraph`) -/

/-- The index of the last `'\n'` in `l`, if any. -/
def lastNewlineIdx (l : List Char) : Option Nat :=
  match l.reverse.findIdx? (fun c => c = '\n') with
  | some j => some (l.length - 1 - j)
  | none => none

/-- `re.split(r'\n\s*\n', text)`, fuelled so that it evaluates by kernel
reduction: scan left to right for non-overlapping matches; a match starts
at a `'\n'` whose following maximal whitespace run holds another `'\n'`,
and (greedy `\s*`) extends to the last `'\n'` of that run. Each step
consumes at least one character, so fuel `length + 1` always suffices. -/
def paraSplitF : Nat → List Char → List (List Char)
  | 0, s => [s]
  | _ + 1, [] => [[]]
  | fuel + 1, c :: rest =>
    if c = '\n' then
      match lastNewlineIdx (rest.takeWhile Char.isWhitespace) with
      | some m => [] :: paraSplitF fuel (rest.drop (m + 1))
      | none =>
        match paraSplitF fuel rest with
        | [] => [[c]]
        | p :: ps => (c :: p) :: ps
    else
      match paraSplitF fuel rest with
      | [] => [[c]]
      | p :: ps => (c :: p) :: ps

/-- `re.split(r'\n\s*\n', text)`. -/
def paraSplit (s : List Char) : List (List Char) :=
  paraSplitF (s.length + 1) s

/-- `"\n\n".join(...)` / `" ".join(...)`. -/
def joinSep (sep : List Char) : List (List Char) → List Char
  | [] => []
  | [p] => p
  | p :: q :: rest => p ++ sep ++ joinSep sep (q :: rest)

/-- The backward overlap walk shared by the paragraph and sentence
strategies: iterate over the reversed buffer, keeping whole pieces while
the accumulated length stays `≤ chunk_overlap`, stopping at the first piece
that does not fit. Returns the kept pieces (in original order) and their
accumulated length. -/
def overlapWalk (chunk_overlap : Nat) : List (List Char) → Nat → List (List Char) × Nat
  | [], os => ([], os)
  | p :: rest, os =>
    if os + p.length ≤ chunk_overlap then
      let r := overlapWalk chunk_overlap rest (os + p.length)
      (r.1 ++ [p], r.2)
    else ([], os)

/-- The `for paragraph in paragraphs` loop of `chunk_text_by_paragraph`,
followed by the final-buffer emission. State: processed chunks, current
buffer, `current_size` (sum of piece lengths, as in the source), next
chunk index. -/
def paraLoop (chunk_size chunk_overlap : Nat) (md : MDict) :
    List (List Char) → List Chunk → List (List Char) → Nat → Nat → List Chunk
  | [], chunks, cur, _, idx =>
    if cur ≠ [] then chunks ++ [mkChunk (joinSep "\n\n".toList cur) md idx] else chunks
  | para :: rest, chunks, cur, curSize, idx =>
    if curSize + para.length > chunk_size ∧ cur ≠ [] then
      let emitted := chunks ++ [mkChunk (joinSep "\n\n".toList cur) md idx]
      let ow := overlapWalk chunk_overlap cur.reverse 0
      paraLoop chunk_size chunk_overlap md rest emitted (ow.1 ++ [para])
        (ow.2 + para.length) (idx + 1)
    else
      paraLoop chunk_size chunk_overlap md rest chunks (cur ++ [para])
        (curSize + para.length) idx

/-- `chunk_text_by_paragraph`: split on blank-line boundaries, strip each
piece, drop empties, then accumulate greedily with whole-paragraph tail
overlap. Never raises. -/
def chunkTextByParagraph (text : List Char) (chunk_size chunk_overlap : Nat)
    (md : MDict) : List Chunk :=
  let paragraphs := ((paraSplit text).map pyStrip).filter (fun p => p ≠ [])
  if paragraphs = [] then []
  else paraLoop chunk_size chunk_overlap md paragraphs [] [] 0 0

/-! ### The sentence strategy (`chunk_text_by_sentence`) -/

/-- `\w` of the sentence regex (ASCII word character). -/
def isWordChar (c : Char) : Bool :=
  c.isAlphanum || c = '_'

/-- One position of the sentence-boundary regex
`(?<!\w\.\w.)(?<![A-Z][a-z]\.)(?<=\.|\?|\!)\s` applied at a character `c`:
`p1`..`p4` are the characters one to four positions back (`none` = before
the start of the text). -/
def sentBoundary (c : Char) (p1 p2 p3 p4 : Option Char) : Bool :=
  c.isWhitespace &&
  (match p1 with
   | some d => d = '.' || d = '?' || d = '!'
   | none => false) &&
  !(match p4, p3, p2 with
    | some a, some b, some d => isWordChar a && b = '.' && isWordChar d
    | _, _, _ => false) &&
  !(match p3, p2, p1 with
    | some a, some b, some d =>
      decide ('A' ≤ a) && decide (a ≤ 'Z') && decide ('a' ≤ b) && decide (b ≤ 'z') &&
        d = '.'
    | _, _, _ => false)

/-- `re.split(sentence_pattern, text)`: walk the text keeping a four-character
lookbehind window; each boundary whitespace character is consumed and ends
the current piece. -/
def sentAux : List Char → Option Char → Option Char → Option Char → Option Char →
    List Char → List (List Char)
  | [], _, _, _, _, acc => [acc.reverse]
  | c :: rest, p1, p2, p3, p4, acc =>
    if sentBoundary c p1 p2 p3 p4 then
      acc.reverse :: sentAux rest (some c) p1 p2 p3 []
    else
      sentAux rest (some c) p1 p2 p3 (c :: acc)

/-- Split text at the sentence-boundary regex. -/
def sentSplit (s : List Char) : List (List Char) :=
  sentAux s none none none none []

/-- The `for i in range(0, sentence_size, step)` loop of the long-sentence
branch of `chunk_text_by_sentence`: emit `sentence[i : i + chunk_size]`
with sequential indices. Only called with `step ≥ 1` (a non-positive step
raises `ValueError` beforehand); fuel `sentence length + 1` then suffices. -/
def rangeLoop (sent : List Char) (chunk_size step : Nat) (md : MDict) :
    Nat → Nat → Nat → List Chunk
  | _, _, 0 => []
  | i, idx, fuel + 1 =>
    if i < sent.length then
      mkChunk ((sent.drop i).take chunk_size) md idx ::
        rangeLoop sent chunk_size step md (i + step) (idx + 1) fuel
    else []

/-- The `for sentence in sentences` loop of `chunk_text_by_sentence`,
followed by the final-buffer emission. A sentence longer than `chunk_size`
flushes the buffer and is split by the fixed-size range loop (raising
`ValueError` when `chunk_size - chunk_overlap ≤ 0`); otherwise sentences
accumulate exactly like paragraphs. -/
def sentLoop (chunk_size chunk_overlap : Nat) (md : MDict) :
    List (List Char) → List Chunk → List (List Char) → Nat → Nat →
    Except ChunkErr (List Chunk)
  | [], chunks, cur, _, idx =>
    .ok (if cur ≠ [] then chunks ++ [mkChunk (joinSep " ".toList cur) md idx]
         else chunks)
  | sent :: rest, chunks, cur, curSize, idx =>
    if chunk_size < sent.length then
      let flushed :=
        if cur ≠ [] then (chunks ++ [mkChunk (joinSep " ".toList cur) md idx], idx + 1)
        else (chunks, idx)
      if chunk_size - chunk_overlap = 0 then .error .rangeStepZero
      else
        let sub := rangeLoop sent chunk_size (chunk_size - chunk_overlap) md 0
          flushed.2 (sent.length + 1)
        sentLoop chunk_size chunk_overlap md rest (flushed.1 ++ sub) [] 0
          (flushed.2 + sub.length)
    else
      if curSize + sent.length > chunk_size ∧ cur ≠ [] then
        let emitted := chunks ++ [mkChunk (joinSep " ".toList cur) md idx]
        let ow := overlapWalk chunk_overlap cur.reverse 0
        sentLoop chunk_size chunk_overlap md rest emitted (ow.1 ++ [sent])
          (ow.2 + sent.length) (idx + 1)
      else
        sentLoop chunk_size chunk_overlap md rest chunks (cur ++ [sent])
          (curSize + sent.length) idx

/-- `chunk_text_by_sentence`: split at the sentence-boundary heuristic,
strip each piece, drop empties, then accumulate with whole-sentence tail
overlap, fixed-size splitting any over-long sentence in place. -/
def chunkTextBySentence (text : List Char) (chunk_size chunk_overlap : Nat)
    (md : MDict) : Except ChunkErr (List Chunk) :=
  let sentences := ((sentSplit text).map pyStrip).filter (fun p => p ≠ [])
  if sentences = [] then .ok []
  else sentLoop chunk_size chunk_overlap md sentences [] [] 0 0

example :
    chunkTextByParagraph "para one.\n\npara two.\n\npara three.".toList 25 0 [] =
      [mkChunk "para one.\n\npara two.".toList [] 0,
       mkChunk "para three.".toList [] 1] := by decide

example :
    chunkTextBySentence "One two. Three four. Five six.".toList 20 5 [] =
      .ok [mkChunk "One two. Three four.".toList [] 0,
           mkChunk "Five six.".toList [] 1] := by rfl

/-! ### The recursive strategy (`chunk_text_recursive`) -/

/-- Python `str.split(sep)` for the non-empty separator `c :: cs`, fuelled
for kernel reduction (each step consumes at least one character, so fuel
`length + 1` suffices). -/
def pySplitF (c : Char) (cs : List Char) : Nat → List Char → List (List Char)
  | 0, s => [s]
  | fuel + 1, s =>
    if (c :: cs).isPrefixOf s then
      [] :: pySplitF c cs fuel (s.drop (cs.length + 1))
    else
      match s with
      | [] => [[]]
      | x :: rest =>
        match pySplitF c cs fuel rest with
        | [] => [[x]]
        | p :: ps => (x :: p) :: ps

/-- Python `text.split(separator)` for a non-empty separator (the caller
raises on the empty separator before ever splitting). -/
def pySplit (sep s : List Char) : List (List Char) :=
  match sep with
  | [] => [s]
  | c :: cs => pySplitF c cs (s.length + 1) s

example : pySplit ",".toList "ab,,cd,".toList =
    ["ab".toList, [], "cd".toList, []] := rfl

example : pySplit ". ".toList "one. two".toList = ["one".toList, "two".toList] := rfl

/-- Python `s.rfind(sub, start)`: the largest index `i ≥ start` at which
`sub` occurs in `s`; `none` models `-1`. (A negative Python start is
clamped to 0, matching the truncated `Nat` subtraction at call sites.) -/
def rfindFrom (s sub : List Char) (start : Nat) : Option Nat :=
  ((List.range s.length).filter
    (fun i => decide (start ≤ i) && sub.isPrefixOf (s.drop i))).getLast?

example : rfindFrom "aaaaaaa ".toList " ".toList 3 = some 7 := rfl
example : rfindFrom "ab ab".toList "ab".toList 4 = none := rfl

/-- The `for sep in separators` overlap scan of `_recursive_chunk`: for the
first non-empty separator occurring in the emitted text, take everything
after its last occurrence within the overlap window, provided that point
lies past `len - 2*chunk_overlap` (an `Int` comparison in the source);
otherwise keep scanning. Returns `""` when the loop never breaks. -/
def findOverlap (separators : List (List Char)) (remaining : List Char)
    (chunk_overlap : Nat) : List Char :=
  match separators with
  | [] => []
  | sep :: rest =>
    if sep ≠ [] ∧ (rfindFrom remaining sep 0).isSome = true then
      match rfindFrom remaining sep (remaining.length - chunk_overlap) with
      | some p =>
        if (remaining.length : Int) - 2 * (chunk_overlap : Int) < (p : Int) then
          remaining.drop (p + sep.length)
        else findOverlap rest remaining chunk_overlap
      | none => findOverlap rest remaining chunk_overlap
    else findOverlap rest remaining chunk_overlap

/-- The overlap text seeded into the next buffer: the scan result, or (when
that is empty and `chunk_overlap > 0`) the raw last `chunk_overlap`
characters `remaining_text[-chunk_overlap:]`. -/
def overlapText (separators : List (List Char)) (remaining : List Char)
    (chunk_overlap : Nat) : List Char :=
  let t := findOverlap separators remaining chunk_overlap
  if t = [] ∧ 0 < chunk_overlap then remaining.drop (remaining.length - chunk_overlap)
  else t

/-- The `for split in splits` loop of `_recursive_chunk`. `sep` is the
current separator (re-appended to every split that differs from the last
split — a value comparison, as in the source), `separators` the current
separator list used by the overlap scan, `recur` the recursive call on the
remaining separator list for over-long pieces. State: emitted chunks,
current buffer, `current_length`, next chunk index; ends with the
final-buffer emission. -/
def recLoopGo (chunk_size chunk_overlap : Nat) (md : MDict) (sep : List Char)
    (separators : List (List Char)) (lastSplit : List Char)
    (recur : List Char → Nat → Except ChunkErr (List Chunk)) :
    List (List Char) → List Chunk → List (List Char) → Nat → Nat →
    Except ChunkErr (List Chunk)
  | [], results, cur, _, idx =>
    .ok (if cur ≠ [] then results ++ [mkChunk cur.flatten md idx] else results)
  | split :: splitsRest, results, cur, curLen, idx =>
    let piece := if sep ≠ [] ∧ split ≠ lastSplit then split ++ sep else split
    if chunk_size < piece.length then
      let flushed :=
        if cur ≠ [] then (results ++ [mkChunk cur.flatten md idx], idx + 1)
        else (results, idx)
      match recur piece flushed.2 with
      | .error e => .error e
      | .ok sub =>
        recLoopGo chunk_size chunk_overlap md sep separators lastSplit recur splitsRest
          (flushed.1 ++ sub) [] 0 (flushed.2 + sub.length)
    else
      if chunk_size < curLen + piece.length ∧ cur ≠ [] then
        let emitted := results ++ [mkChunk cur.flatten md idx]
        let ot := overlapText separators cur.flatten chunk_overlap
        recLoopGo chunk_size chunk_overlap md sep separators lastSplit recur splitsRest
          emitted [ot, piece] (ot.length + piece.length) (idx + 1)
      else
        recLoopGo chunk_size chunk_overlap md sep separators lastSplit recur splitsRest
          results (cur ++ [piece]) (curLen + piece.length) idx

/-- `_recursive_chunk(text, separators, chunk_index)`: emit short text as a
single chunk; with no separators left, fall back to fixed-size chunking;
`text.split('')` raises `ValueError`; a split that does not help recurses
on the remaining separators; otherwise run the accumulation loop. -/
def recChunk (chunk_size chunk_overlap : Nat) (md : MDict) :
    List (List Char) → List Char → Nat → Except ChunkErr (List Chunk)
  | seps, text, idx =>
    if text.length ≤ chunk_size then .ok [mkChunk text md idx]
    else
      match seps with
      | [] => chunkTextFixedSize text chunk_size chunk_overlap md
      | sep :: rest =>
        if sep = [] then .error .emptySeparator
        else
          let splits := pySplit sep text
          if splits.length = 1 then recChunk chunk_size chunk_overlap md rest text idx
          else
            recLoopGo chunk_size chunk_overlap md sep (sep :: rest) (splits.getLastD [])
              (fun t i => recChunk chunk_size chunk_overlap md rest t i)
              splits [] [] 0 idx

/-- The separator hierarchy of `chunk_text_recursive`, coarse to fine. -/
def separatorHierarchy : List (List Char) :=
  ["\n\n".toList, "\n".toList, ". ".toList, ", ".toList, " ".toList, []]

/-- `chunk_text_recursive(text, chunk_size, chunk_overlap, metadata)`. -/
def chunkTextRecursive (text : List Char) (chunk_size chunk_overlap : Nat)
    (md : MDict) : Except ChunkErr (List Chunk) :=
  recChunk chunk_size chunk_overlap md separatorHierarchy text 0

example : chunkTextRecursive "".toList 512 50 [] = .ok [mkChunk [] [] 0] := rfl

example : chunkTextRecursive "aaaaaaa bbbbbbb ccccccc".toList 10 5 [] =
    .ok [mkChunk "aaaaaaa ".toList [] 0,
         mkChunk "aaaa bbbbbbb ".toList [] 1,
         mkChunk "bbbb ccccccc".toList [] 2] := by rfl

example : chunkTextRecursive "one two three four".toList 10 0 [] =
    .ok [mkChunk "one two ".toList [] 0, mkChunk "three four".toList [] 1] := by rfl

/-! ### The strategy dispatcher (`chunk_text`) -/

/-- `config.chunking.chunk_size` default (`CHUNK_SIZE`, 512). -/
def configChunkSize : Nat := 512

/-- `config.chunking.chunk_overlap` default (`CHUNK_OVERLAP`, 50). -/
def configChunkOverlap : Nat := 50

/-- Python `x or default` for an optional integer argument (`None` and `0`
are falsy). -/
def pyOrNat (x : Option Nat) (dflt : Nat) : Nat :=
  match x with
  | some n => if n = 0 then dflt else n
  | none => dflt

/-- Python `metadata or {}`. -/
def pyOrDict (x : Option MDict) : MDict :=
  match x with
  | some d => if d = [] then [] else d
  | none => []

/-- `chunk_text(text, chunk_size, chunk_overlap, metadata, strategy)`:
resolve defaults, then dispatch on the strategy string; any unknown
strategy logs a warning and falls back to fixed-size chunking. -/
def chunkText (text : List Char) (chunk_size chunk_overlap : Option Nat)
    (metadata : Option MDict) (strategy : String) : Except ChunkErr (List Chunk) :=
  let cs := pyOrNat chunk_size configChunkSize
  let co := pyOrNat chunk_overlap configChunkOverlap
  let md := pyOrDict metadata
  if strategy = "fixed_size" then chunkTextFixedSize text cs co md
  else if strategy = "paragraph" then .ok (chunkTextByParagraph text cs co md)
  else if strategy = "sentence" then chunkTextBySentence text cs co md
  else if strategy = "recursive" then chunkTextRecursive text cs co md
  else chunkTextFixedSize text cs co md

/-- C10: `chunk_text` with a strategy string that is none of `fixed_size`,
`paragraph`, `sentence`, `recursive` does not raise: it logs a warning and
falls back to the fixed-size strategy, returning exactly the result of an
explicit fixed-size call with the same text, chunk size, overlap and
metadata (defaults resolved identically). -/
theorem c10_unknown_strategy_falls_back (text : List Char)
    (chunk_size chunk_overlap : Option Nat) (metadata : Option MDict)
    (strategy : String) (h1 : strategy ≠ "fixed_size") (h2 : strategy ≠ "paragraph")
    (h3 : strategy ≠ "sentence") (h4 : strategy ≠ "recursive") :
    chunkText text chunk_size chunk_overlap metadata strategy =
      chunkText text chunk_size chunk_overlap metadata "fixed_size" := by
  unfold chunkText
  rw [if_neg h1, if_neg h2, if_neg h3, if_neg h4, if_pos rfl]

/-- Witness for `c10_unknown_strategy_falls_back` at the unknown strategy
string `"banana"`. -/
theorem c10_witness :
    chunkText "hello world".toList (some 5) (some 0) none "banana" =
      chunkText "hello world".toList (some 5) (some 0) none "fixed_size" :=
  c10_unknown_strategy_falls_back "hello world".toList (some 5) (some 0) none
    "banana" (by decide) (by decide) (by decide) (by decide)

/-! ### C5: empty / whitespace-only input -/

theorem pyStrip_eq_nil (l : List Char) (h : ∀ c ∈ l, c.isWhitespace = true) :
    pyStrip l = [] := by
  unfold pyStrip
  have h1 : l.dropWhile Char.isWhitespace = [] := List.dropWhile_eq_nil_iff.2 h
  rw [h1]
  rfl

theorem paraSplitF_ws (q : Char → Bool) :
    ∀ (fuel : Nat) (s : List Char), (∀ c ∈ s, q c = true) →
      ∀ piece ∈ paraSplitF fuel s, ∀ c ∈ piece, q c = true := by
  intro fuel
  induction fuel with
  | zero =>
    intro s hs piece hp
    rw [paraSplitF] at hp
    simp only [List.mem_singleton] at hp
    subst hp
    exact hs
  | succ n ih =>
    intro s hs piece hp
    cases s with
    | nil =>
      rw [paraSplitF] at hp
      simp only [List.mem_singleton] at hp
      subst hp
      intro c hc
      simp at hc
    | cons c rest =>
      have hc : q c = true := hs c (List.mem_cons_self _ _)
      have hrest : ∀ d ∈ rest, q d = true :=
        fun d hd => hs d (List.mem_cons_of_mem _ hd)
      rw [paraSplitF] at hp
      by_cases hnl : c = '\n'
      · rw [if_pos hnl] at hp
        cases hidx : lastNewlineIdx (rest.takeWhile Char.isWhitespace) with
        | some m =>
          rw [hidx] at hp
          rcases List.mem_cons.1 hp with h1 | h1
          · subst h1; intro d hd; simp at hd
          · exact ih (rest.drop (m + 1))
              (fun d hd => hrest d (List.drop_subset _ _ hd)) piece h1
        | none =>
          rw [hidx] at hp
          cases hrec : paraSplitF n rest with
          | nil =>
            rw [hrec] at hp
            simp only [List.mem_singleton] at hp
            subst hp
            intro d hd
            rcases List.mem_singleton.1 hd with h1
            subst h1; exact hc
          | cons p ps =>
            rw [hrec] at hp
            rcases List.mem_cons.1 hp with h1 | h1
            · subst h1
              intro d hd
              rcases List.mem_cons.1 hd with h2 | h2
              · subst h2; exact hc
              · exact ih rest hrest p (hrec ▸ List.mem_cons_self _ _) d h2
            · exact ih rest hrest piece (hrec ▸ List.mem_cons_of_mem _ h1)
      · rw [if_neg hnl] at hp
        cases hrec : paraSplitF n rest with
        | nil =>
          rw [hrec] at hp
          simp only [List.mem_singleton] at hp
          subst hp
          intro d hd
          rcases List.mem_singleton.1 hd with h1
          subst h1; exact hc
        | cons p ps =>
          rw [hrec] at hp
          rcases List.mem_cons.1 hp with h1 | h1
          · subst h1
            intro d hd
            rcases List.mem_cons.1 hd with h2 | h2
            · subst h2; exact hc
            · exact ih rest hrest p (hrec ▸ List.mem_cons_self _ _) d h2
          · exact ih rest hrest piece (hrec ▸ List.mem_cons_of_mem _ h1)

theorem sentAux_ws (q : Char → Bool) :
    ∀ (s : List Char) (p1 p2 p3 p4 : Option Char) (acc : List Char),
      (∀ c ∈ s, q c = true) → (∀ c ∈ acc, q c = true) →
      ∀ piece ∈ sentAux s p1 p2 p3 p4 acc, ∀ c ∈ piece, q c = true := by
  intro s
  induction s with
  | nil =>
    intro p1 p2 p3 p4 acc _ hacc piece hp
    rw [sentAux] at hp
    simp only [List.mem_singleton] at hp
    subst hp
    intro c hc
    exact hacc c (List.mem_reverse.1 hc)
  | cons c rest ih =>
    intro p1 p2 p3 p4 acc hs hacc piece hp
    have hc : q c = true := hs c (List.mem_cons_self _ _)
    have hrest : ∀ d ∈ rest, q d = true :=
      fun d hd => hs d (List.mem_cons_of_mem _ hd)
    rw [sentAux] at hp
    by_cases hb : sentBoundary c p1 p2 p3 p4 = true
    · rw [if_pos hb] at hp
      rcases List.mem_cons.1 hp with h1 | h1
      · subst h1
        intro d hd
        exact hacc d (List.mem_reverse.1 hd)
      · exact ih (some c) p1 p2 p3 [] hrest (by intro d hd; simp at hd) piece h1
    · rw [if_neg hb] at hp
      refine ih (some c) p1 p2 p3 (c :: acc) hrest ?_ piece hp
      intro d hd
      rcases List.mem_cons.1 hd with h2 | h2
      · subst h2; exact hc
      · exact hacc d h2

theorem stripped_pieces_nil (pieces : List (List Char))
    (h : ∀ piece ∈ pieces, ∀ c ∈ piece, c.isWhitespace = true) :
    (pieces.map pyStrip).filter (fun p => p ≠ []) = [] := by
  rw [List.filter_eq_nil]
  intro a ha
  rcases List.mem_map.1 ha with ⟨piece, hmem, rfl⟩
  rw [pyStrip_eq_nil piece (h piece hmem)]
  simp

/-- C5 as stated is false: for the empty input text (and for any
whitespace-only text of length at most `chunk_size`) the recursive
strategy's base case emits the raw text as a single chunk instead of
returning the empty chunk list. -/
theorem c5_counterexample :
    chunkTextRecursive "".toList 512 50 [] = .ok [mkChunk [] [] 0] ∧
    chunkTextRecursive "".toList 512 50 [] ≠ .ok [] ∧
    chunkTextRecursive " ".toList 512 50 [] = .ok [mkChunk " ".toList [] 0] := by
  refine ⟨rfl, ?_, rfl⟩
  intro h
  exact List.noConfusion (Except.ok.inj h)

/-- C5 amended: for every empty or whitespace-only input, the fixed_size,
paragraph and sentence strategies return the empty chunk list and do not
raise; the recursive strategy instead returns the input itself as one chunk
whenever its length is at most `chunk_size` (its base case has no
emptiness guard). -/
theorem c5_whitespace_only_input (text : List Char) (cs co : Nat) (md : MDict)
    (hws : ∀ c ∈ text, c.isWhitespace = true) :
    chunkTextFixedSize text cs co md = .ok [] ∧
    chunkTextByParagraph text cs co md = [] ∧
    chunkTextBySentence text cs co md = .ok [] ∧
    (text.length ≤ cs → chunkTextRecursive text cs co md = .ok [mkChunk text md 0]) := by
  refine ⟨?_, ?_, ?_, ?_⟩
  · unfold chunkTextFixedSize
    rw [pyStrip_eq_nil text hws]
    rfl
  · unfold chunkTextByParagraph
    rw [stripped_pieces_nil (paraSplit text)
      (paraSplitF_ws _ (text.length + 1) text hws)]
    rfl
  · unfold chunkTextBySentence
    rw [stripped_pieces_nil (sentSplit text)
      (sentAux_ws _ text none none none none [] hws (by intro c hc; simp at hc))]
    rfl
  · intro hlen
    unfold chunkTextRecursive
    rw [recChunk.eq_def]
    dsimp only
    rw [if_pos hlen]

/-- Witness for `c5_whitespace_only_input` at the whitespace-only text
`"  \n "`. -/
theorem c5_witness :
    chunkTextFixedSize "  \n ".toList 512 50 [] = .ok [] ∧
    chunkTextByParagraph "  \n ".toList 512 50 [] = [] ∧
    chunkTextBySentence "  \n ".toList 512 50 [] = .ok [] ∧
    chunkTextRecursive "  \n ".toList 512 50 [] = .ok [mkChunk "  \n ".toList [] 0] := by
  have h := c5_whitespace_only_input "  \n ".toList 512 50 [] (by decide)
  exact ⟨h.1, h.2.1, h.2.2.1, h.2.2.2 (by decide)⟩

/-! ### C4: chunk indices are assigned sequentially from 0 -/

theorem seqIdxFrom_zero (i0 : Nat) : seqIdxFrom i0 0 = [] := rfl

theorem seqIdxFrom_one (i0 : Nat) : seqIdxFrom i0 1 = [some (.scalar i0)] := rfl

theorem idxList_append (a b : List Chunk) :
    idxList (a ++ b) = idxList a ++ idxList b := by
  simp [idxList]

/-- Appending a block whose indices continue where the first block's end. -/
theorem seqFrom_append (a b : List Chunk) (i0 : Nat)
    (ha : idxList a = seqIdxFrom i0 a.length)
    (hb : idxList b = seqIdxFrom (i0 + a.length) b.length) :
    idxList (a ++ b) = seqIdxFrom i0 (a ++ b).length := by
  rw [idxList_append, ha, hb, List.length_append, seqIdxFrom_append]

/-- Appending one chunk carrying the next index. -/
theorem seqFrom_snoc (a : List Chunk) (t : List Char) (md : MDict) (i0 : Nat)
    (ha : idxList a = seqIdxFrom i0 a.length) :
    idxList (a ++ [mkChunk t md (i0 + a.length)]) =
      seqIdxFrom i0 (a ++ [mkChunk t md (i0 + a.length)]).length := by
  refine seqFrom_append a _ i0 ha ?_
  simp [idxList, chunkIdx_mkChunk, seqIdxFrom_one]

theorem rangeLoop_idx (sent : List Char) (cs step : Nat) (md : MDict) :
    ∀ (fuel i idx : Nat),
      idxList (rangeLoop sent cs step md i idx fuel) =
        seqIdxFrom idx (rangeLoop sent cs step md i idx fuel).length := by
  intro fuel
  induction fuel with
  | zero => intro i idx; rfl
  | succ n ih =>
    intro i idx
    rw [rangeLoop]
    by_cases h : i < sent.length
    · rw [if_pos h]
      simp only [idxList, List.map_cons, List.length_cons, seqIdxFrom_succ,
        chunkIdx_mkChunk]
      have := ih (i + step) (idx + 1)
      rw [← this]
      rfl
    · rw [if_neg h]
      rfl

theorem paraLoop_idx (cs co : Nat) (md : MDict) :
    ∀ (paras : List (List Char)) (chunks : List Chunk) (cur : List (List Char))
      (curSize idx : Nat),
      idxList chunks = seqIdxFrom 0 chunks.length → idx = chunks.length →
      idxList (paraLoop cs co md paras chunks cur curSize idx) =
        seqIdxFrom 0 (paraLoop cs co md paras chunks cur curSize idx).length := by
  intro paras
  induction paras with
  | nil =>
    intro chunks cur curSize idx hseq hidx
    rw [paraLoop]
    by_cases hcur : cur ≠ []
    · rw [if_pos hcur, hidx]
      have := seqFrom_snoc chunks (joinSep "\n\n".toList cur) md 0 hseq
      simpa using this
    · rw [if_neg hcur]
      exact hseq
  | cons para rest ih =>
    intro chunks cur curSize idx hseq hidx
    rw [paraLoop]
    by_cases hcond : curSize + para.length > cs ∧ cur ≠ []
    · rw [if_pos hcond]
      have hemit : idxList (chunks ++ [mkChunk (joinSep "\n\n".toList cur) md idx]) =
          seqIdxFrom 0 (chunks ++ [mkChunk (joinSep "\n\n".toList cur) md idx]).length := by
        rw [hidx]
        have := seqFrom_snoc chunks (joinSep "\n\n".toList cur) md 0 hseq
        simpa using this
      exact ih _ _ _ _ hemit (by simp [hidx])
    · rw [if_neg hcond]
      exact ih _ _ _ _ hseq hidx

theorem sentLoop_idx (cs co : Nat) (md : MDict) :
    ∀ (sents : List (List Char)) (chunks : List Chunk) (cur : List (List Char))
      (curSize idx : Nat) (l : List Chunk),
      idxList chunks = seqIdxFrom 0 chunks.length → idx = chunks.length →
      sentLoop cs co md sents chunks cur curSize idx = .ok l →
      idxList l = seqIdxFrom 0 l.length := by
  intro sents
  induction sents with
  | nil =>
    intro chunks cur curSize idx l hseq hidx hok
    rw [sentLoop] at hok
    by_cases hcur : cur ≠ []
    · rw [if_pos hcur] at hok
      cases hok
      rw [hidx]
      have := seqFrom_snoc chunks (joinSep " ".toList cur) md 0 hseq
      simpa using this
    · rw [if_neg hcur] at hok
      cases hok
      exact hseq
  | cons sent rest ih =>
    intro chunks cur curSize idx l hseq hidx hok
    rw [sentLoop] at hok
    by_cases hlong : cs < sent.length
    · rw [if_pos hlong] at hok
      by_cases hstep : cs - co = 0
      · rw [if_pos hstep] at hok
        exact absurd hok (by simp)
      · rw [if_neg hstep] at hok
        dsimp only at hok
        by_cases hcur : cur ≠ []
        · simp only [if_pos hcur] at hok
          set f1 := chunks ++ [mkChunk (joinSep " ".toList cur) md idx] with hf1
          have hf1seq : idxList f1 = seqIdxFrom 0 f1.length := by
            rw [hf1, hidx]
            have := seqFrom_snoc chunks (joinSep " ".toList cur) md 0 hseq
            simpa using this
          set sub := rangeLoop sent cs (cs - co) md 0 (idx + 1) (sent.length + 1)
            with hsub
          have hcomb : idxList (f1 ++ sub) = seqIdxFrom 0 (f1 ++ sub).length := by
            refine seqFrom_append f1 sub 0 hf1seq ?_
            have hlen1 : f1.length = idx + 1 := by simp [hf1, hidx]
            rw [hsub]
            have := rangeLoop_idx sent cs (cs - co) md (sent.length + 1) 0 (idx + 1)
            rw [Nat.zero_add, hlen1]
            exact this
          refine ih _ _ _ _ l hcomb ?_ hok
          simp only [hf1, hidx, List.length_append, List.length_singleton]
          try omega
        · simp only [if_neg hcur] at hok
          have hcomb : idxList (chunks ++ rangeLoop sent cs (cs - co) md 0 idx
                (sent.length + 1)) =
              seqIdxFrom 0 (chunks ++ rangeLoop sent cs (cs - co) md 0 idx
                (sent.length + 1)).length := by
            refine seqFrom_append _ _ 0 hseq ?_
            have := rangeLoop_idx sent cs (cs - co) md (sent.length + 1) 0 idx
            rw [Nat.zero_add, ← hidx]
            exact this
          refine ih _ _ _ _ l hcomb ?_ hok
          simp [hidx]
    · rw [if_neg hlong] at hok
      by_cases hcond : cs < curSize + sent.length ∧ cur ≠ []
      · rw [if_pos hcond] at hok
        dsimp only at hok
        have hemit : idxList (chunks ++ [mkChunk (joinSep " ".toList cur) md idx]) =
            seqIdxFrom 0 (chunks ++ [mkChunk (joinSep " ".toList cur) md idx]).length := by
          rw [hidx]
          have := seqFrom_snoc chunks (joinSep " ".toList cur) md 0 hseq
          simpa using this
        exact ih _ _ _ _ l hemit (by simp [hidx]) hok
      · rw [if_neg hcond] at hok
        exact ih _ _ _ _ l hseq hidx hok

theorem recLoopGo_idx (cs co : Nat) (md : MDict) (sep : List Char)
    (separators : List (List Char)) (lastSplit : List Char)
    (recur : List Char → Nat → Except ChunkErr (List Chunk))
    (hrec : ∀ (t : List Char) (i : Nat) (l' : List Chunk),
      recur t i = .ok l' → idxList l' = seqIdxFrom i l'.length) :
    ∀ (splits : List (List Char)) (results : List Chunk) (cur : List (List Char))
      (curLen i0 idx : Nat) (l : List Chunk),
      idxList results = seqIdxFrom i0 results.length → idx = i0 + results.length →
      recLoopGo cs co md sep separators lastSplit recur splits results cur curLen idx =
        .ok l →
      idxList l = seqIdxFrom i0 l.length := by
  intro splits
  induction splits with
  | nil =>
    intro results cur curLen i0 idx l hseq hidx hok
    rw [recLoopGo] at hok
    by_cases hcur : cur ≠ []
    · rw [if_pos hcur] at hok
      cases hok
      rw [hidx]
      simpa using seqFrom_snoc results cur.flatten md i0 hseq
    · rw [if_neg hcur] at hok
      cases hok
      exact hseq
  | cons split splitsRest ih =>
    intro results cur curLen i0 idx l hseq hidx hok
    rw [recLoopGo] at hok
    dsimp only at hok
    by_cases hbig :
        cs < (if sep ≠ [] ∧ split ≠ lastSplit then split ++ sep else split).length
    · rw [if_pos hbig] at hok
      by_cases hcur : cur ≠ []
      · rw [if_pos hcur] at hok
        dsimp only at hok
        cases hr : recur (if sep ≠ [] ∧ split ≠ lastSplit then split ++ sep else split)
            (idx + 1) with
        | error e => rw [hr] at hok; exact absurd hok (by simp)
        | ok sub =>
          rw [hr] at hok
          dsimp only at hok
          refine ih _ _ _ i0 _ l ?_ ?_ hok
          · refine seqFrom_append _ _ i0 ?_ ?_
            · rw [hidx]
              simpa using seqFrom_snoc results cur.flatten md i0 hseq
            · rw [hrec _ _ sub hr]
              congr 1
              simp only [List.length_append, List.length_singleton]
              omega
          · simp only [List.length_append, List.length_singleton]
            omega
      · rw [if_neg hcur] at hok
        dsimp only at hok
        cases hr : recur (if sep ≠ [] ∧ split ≠ lastSplit then split ++ sep else split)
            idx with
        | error e => rw [hr] at hok; exact absurd hok (by simp)
        | ok sub =>
          rw [hr] at hok
          dsimp only at hok
          refine ih _ _ _ i0 _ l ?_ ?_ hok
          · refine seqFrom_append _ _ i0 hseq ?_
            rw [hrec _ _ sub hr, hidx]
          · simp only [List.length_append]
            omega
    · rw [if_neg hbig] at hok
      by_cases hover :
          cs < curLen + (if sep ≠ [] ∧ split ≠ lastSplit then split ++ sep
            else split).length ∧ cur ≠ []
      · rw [if_pos hover] at hok
        try dsimp only at hok
        refine ih _ _ _ i0 _ l ?_ ?_ hok
        · rw [hidx]
          simpa using seqFrom_snoc results cur.flatten md i0 hseq
        · simp only [List.length_append, List.length_singleton]
          omega
      · rw [if_neg hover] at hok
        exact ih _ _ _ i0 _ l hseq hidx hok

theorem recChunk_idx (cs co : Nat) (md : MDict) :
    ∀ (seps : List (List Char)), [] ∈ seps →
      ∀ (text : List Char) (idx : Nat) (l : List Chunk),
        recChunk cs co md seps text idx = .ok l →
        idxList l = seqIdxFrom idx l.length := by
  intro seps
  induction seps with
  | nil => intro h; simp at h
  | cons sep rest ih =>
    intro hmem text idx l hok
    rw [recChunk.eq_def] at hok
    dsimp only at hok
    by_cases hbase : text.length ≤ cs
    · rw [if_pos hbase] at hok
      cases hok
      simp [idxList, chunkIdx_mkChunk, seqIdxFrom_one]
    · rw [if_neg hbase] at hok
      by_cases hsep : sep = []
      · rw [if_pos hsep] at hok
        exact absurd hok (by simp)
      · rw [if_neg hsep] at hok
        have hmem' : ([] : List Char) ∈ rest := by
          rcases List.mem_cons.1 hmem with h | h
          · exact absurd h.symm hsep
          · exact h
        try dsimp only at hok
        by_cases hone : (pySplit sep text).length = 1
        · rw [if_pos hone] at hok
          exact ih hmem' text idx l hok
        · rw [if_neg hone] at hok
          exact recLoopGo_idx cs co md sep (sep :: rest) ((pySplit sep text).getLastD [])
            _ (fun t i l' h => ih hmem' t i l' h) (pySplit sep text) [] [] 0 idx idx l
            rfl (by simp) hok

/-- C4: within one `chunk()` call, every strategy assigns `chunk_index`
sequentially starting at 0 — on every successful run, the list of
`chunk_index` values recorded in the returned chunks' metadata is exactly
`[0, 1, ..., n-1]` (unique, monotonically increasing, gap-free). -/
theorem c4_sequential_indices (text : List Char) (cs co : Nat) (md : MDict) :
    Except.map idxList (chunkTextFixedSize text cs co md) =
      Except.map (fun l => seqIdxFrom 0 l.length) (chunkTextFixedSize text cs co md) ∧
    idxList (chunkTextByParagraph text cs co md) =
      seqIdxFrom 0 (chunkTextByParagraph text cs co md).length ∧
    Except.map idxList (chunkTextBySentence text cs co md) =
      Except.map (fun l => seqIdxFrom 0 l.length) (chunkTextBySentence text cs co md) ∧
    Except.map idxList (chunkTextRecursive text cs co md) =
      Except.map (fun l => seqIdxFrom 0 l.length) (chunkTextRecursive text cs co md) := by
  refine ⟨?_, ?_, ?_, ?_⟩
  · unfold chunkTextFixedSize
    by_cases h : pyStrip text = []
    · rw [if_pos h]
      rfl
    · rw [if_neg h]
      cases hl : fixedLoop (pyStrip text) cs co md 0 0 ((pyStrip text).length + 1) with
      | none => rfl
      | some lst =>
        have hidx := fixedLoop_idx (pyStrip text) cs co md _ _ _ lst hl
        simp [Except.map, hidx]
  · unfold chunkTextByParagraph
    by_cases h : ((paraSplit text).map pyStrip).filter (fun p => p ≠ []) = []
    · rw [if_pos h]
      rfl
    · rw [if_neg h]
      exact paraLoop_idx cs co md _ [] [] 0 0 rfl rfl
  · cases hs : chunkTextBySentence text cs co md with
    | error e => rfl
    | ok lst =>
      have hseq : idxList lst = seqIdxFrom 0 lst.length := by
        unfold chunkTextBySentence at hs
        by_cases h : ((sentSplit text).map pyStrip).filter (fun p => p ≠ []) = []
        · rw [if_pos h] at hs
          cases hs
          rfl
        · rw [if_neg h] at hs
          exact sentLoop_idx cs co md _ [] [] 0 0 lst rfl rfl hs
      simp [Except.map, hseq]
  · cases hr : chunkTextRecursive text cs co md with
    | error e => rfl
    | ok lst =>
      have hseq := recChunk_idx cs co md separatorHierarchy (by decide) text 0 lst hr
      simp [Except.map, hseq]

/-! ### C3: chunk-size bound for the recursive strategy -/

theorem rfindFrom_ge (s sub : List Char) (start p : Nat)
    (h : rfindFrom s sub start = some p) : start ≤ p := by
  have hmem := List.mem_of_mem_getLast? h
  have := List.mem_filter.1 hmem
  have hdec := this.2
  simp only [Bool.and_eq_true, decide_eq_true_eq] at hdec
  exact hdec.1

theorem findOverlap_length_le (remaining : List Char) (co : Nat) :
    ∀ seps : List (List Char), (findOverlap seps remaining co).length ≤ co := by
  intro seps
  induction seps with
  | nil => simp [findOverlap]
  | cons sep rest ih =>
    rw [findOverlap]
    by_cases hc : sep ≠ [] ∧ (rfindFrom remaining sep 0).isSome = true
    · rw [if_pos hc]
      cases hf : rfindFrom remaining sep (remaining.length - co) with
      | some p =>
        dsimp only
        by_cases hcmp :
            (remaining.length : Int) - 2 * (co : Int) < (p : Int)
        · rw [if_pos hcmp]
          have hp := rfindFrom_ge remaining sep _ p hf
          rw [List.length_drop]
          omega
        · rw [if_neg hcmp]
          exact ih
      | none => exact ih
    · rw [if_neg hc]
      exact ih

theorem overlapText_length_le (seps : List (List Char)) (remaining : List Char)
    (co : Nat) : (overlapText seps remaining co).length ≤ co := by
  unfold overlapText
  by_cases h : findOverlap seps remaining co = [] ∧ 0 < co
  · rw [if_pos h]
    rw [List.length_drop]
    omega
  · rw [if_neg h]
    exact findOverlap_length_le remaining co seps

theorem fixedLoop_text_le (t : List Char) (cs co : Nat) (md : MDict) :
    ∀ (fuel start ci : Nat) (l : List Chunk),
      fixedLoop t cs co md start ci fuel = some l →
      ∀ c ∈ l, c.text.length ≤ cs := by
  intro fuel
  induction fuel with
  | zero => intro start ci l h; exact absurd h (by simp [fixedLoop])
  | succ n ih =>
    intro start ci l h
    rw [fixedLoop] at h
    by_cases hlt : start < t.length
    · rw [if_pos hlt] at h
      cases hrec : fixedLoop t cs co md (start + (cs - co)) (ci + 1) n with
      | none => rw [hrec] at h; exact absurd h (by simp)
      | some rest =>
        rw [hrec] at h
        cases h
        intro c hc
        rcases List.mem_cons.1 hc with h1 | h1
        · subst h1
          show ((t.drop start).take cs).length ≤ cs
          rw [List.length_take]
          omega
        · exact ih _ _ rest hrec c h1
    · rw [if_neg hlt] at h
      cases h
      intro c hc
      simp at hc

theorem chunkTextFixedSize_text_le (text : List Char) (cs co : Nat) (md : MDict)
    (l : List Chunk) (h : chunkTextFixedSize text cs co md = .ok l) :
    ∀ c ∈ l, c.text.length ≤ cs := by
  unfold chunkTextFixedSize at h
  by_cases hs : pyStrip text = []
  · rw [if_pos hs] at h
    cases h
    intro c hc
    simp at hc
  · rw [if_neg hs] at h
    cases hl : fixedLoop (pyStrip text) cs co md 0 0 ((pyStrip text).length + 1) with
    | none => rw [hl] at h; exact absurd h (by simp)
    | some lst =>
      rw [hl] at h
      cases h
      exact fixedLoop_text_le (pyStrip text) cs co md _ _ _ _ hl

theorem recLoopGo_bound (cs co : Nat) (md : MDict) (sep : List Char)
    (separators : List (List Char)) (lastSplit : List Char)
    (recur : List Char → Nat → Except ChunkErr (List Chunk))
    (hrec : ∀ (t : List Char) (i : Nat) (l' : List Chunk),
      recur t i = .ok l' → ∀ c ∈ l', c.text.length ≤ cs + co) :
    ∀ (splits : List (List Char)) (results : List Chunk) (cur : List (List Char))
      (curLen idx : Nat) (l : List Chunk),
      (∀ c ∈ results, c.text.length ≤ cs + co) →
      curLen = cur.flatten.length → curLen ≤ cs + co →
      recLoopGo cs co md sep separators lastSplit recur splits results cur curLen idx =
        .ok l →
      ∀ c ∈ l, c.text.length ≤ cs + co := by
  intro splits
  induction splits with
  | nil =>
    intro results cur curLen idx l hres hcl hble hok
    rw [recLoopGo] at hok
    by_cases hcur : cur ≠ []
    · rw [if_pos hcur] at hok
      cases hok
      intro c hc
      rcases List.mem_append.1 hc with h1 | h1
      · exact hres c h1
      · rcases List.mem_singleton.1 h1 with rfl
        show cur.flatten.length ≤ cs + co
        omega
    · rw [if_neg hcur] at hok
      cases hok
      exact hres
  | cons split splitsRest ih =>
    intro results cur curLen idx l hres hcl hble hok
    rw [recLoopGo] at hok
    dsimp only at hok
    by_cases hbig :
        cs < (if sep ≠ [] ∧ split ≠ lastSplit then split ++ sep else split).length
    · rw [if_pos hbig] at hok
      by_cases hcur : cur ≠ []
      · rw [if_pos hcur] at hok
        dsimp only at hok
        cases hr : recur (if sep ≠ [] ∧ split ≠ lastSplit then split ++ sep else split)
            (idx + 1) with
        | error e => rw [hr] at hok; exact absurd hok (by simp)
        | ok sub =>
          rw [hr] at hok
          dsimp only at hok
          refine ih _ _ _ _ l ?_ ?_ ?_ hok
          · intro c hc
            rcases List.mem_append.1 hc with h1 | h1
            · rcases List.mem_append.1 h1 with h2 | h2
              · exact hres c h2
              · rcases List.mem_singleton.1 h2 with rfl
                show cur.flatten.length ≤ cs + co
                omega
            · exact hrec _ _ sub hr c h1
          · rfl
          · omega
      · rw [if_neg hcur] at hok
        dsimp only at hok
        cases hr : recur (if sep ≠ [] ∧ split ≠ lastSplit then split ++ sep else split)
            idx with
        | error e => rw [hr] at hok; exact absurd hok (by simp)
        | ok sub =>
          rw [hr] at hok
          dsimp only at hok
          refine ih _ _ _ _ l ?_ ?_ ?_ hok
          · intro c hc
            rcases List.mem_append.1 hc with h1 | h1
            · exact hres c h1
            · exact hrec _ _ sub hr c h1
          · rfl
          · omega
    · rw [if_neg hbig] at hok
      by_cases hover :
          cs < curLen + (if sep ≠ [] ∧ split ≠ lastSplit then split ++ sep
            else split).length ∧ cur ≠ []
      · rw [if_pos hover] at hok
        try dsimp only at hok
        refine ih _ _ _ _ l ?_ ?_ ?_ hok
        · intro c hc
          rcases List.mem_append.1 hc with h1 | h1
          · exact hres c h1
          · rcases List.mem_singleton.1 h1 with rfl
            show cur.flatten.length ≤ cs + co
            omega
        · simp
        · have hot := overlapText_length_le separators cur.flatten co
          omega
      · rw [if_neg hover] at hok
        rcases Decidable.not_and_iff_or_not.1 hover with hfit | hcur
        · refine ih _ _ _ _ l hres ?_ ?_ hok
          · simp [hcl]
          · omega
        · have hcurnil : cur = [] := by
            by_contra hne
            exact hcur hne
          subst hcurnil
          refine ih _ _ _ _ l hres ?_ ?_ hok
          · simp [hcl]
          · have : curLen = 0 := by simpa using hcl
            omega

theorem recChunk_bound (cs co : Nat) (md : MDict) :
    ∀ (seps : List (List Char)) (text : List Char) (idx : Nat) (l : List Chunk),
      recChunk cs co md seps text idx = .ok l →
      ∀ c ∈ l, c.text.length ≤ cs + co := by
  intro seps
  induction seps with
  | nil =>
    intro text idx l hok
    rw [recChunk.eq_def] at hok
    dsimp only at hok
    by_cases hbase : text.length ≤ cs
    · rw [if_pos hbase] at hok
      cases hok
      intro c hc
      rcases List.mem_singleton.1 hc with rfl
      show text.length ≤ cs + co
      omega
    · rw [if_neg hbase] at hok
      intro c hc
      exact Nat.le_trans (chunkTextFixedSize_text_le text cs co md l hok c hc)
        (by omega)
  | cons sep rest ih =>
    intro text idx l hok
    rw [recChunk.eq_def] at hok
    dsimp only at hok
    by_cases hbase : text.length ≤ cs
    · rw [if_pos hbase] at hok
      cases hok
      intro c hc
      rcases List.mem_singleton.1 hc with rfl
      show text.length ≤ cs + co
      omega
    · rw [if_neg hbase] at hok
      by_cases hsep : sep = []
      · rw [if_pos hsep] at hok
        exact absurd hok (by simp)
      · rw [if_neg hsep] at hok
        try dsimp only at hok
        by_cases hone : (pySplit sep text).length = 1
        · rw [if_pos hone] at hok
          exact ih text idx l hok
        · rw [if_neg hone] at hok
          exact recLoopGo_bound cs co md sep (sep :: rest)
            ((pySplit sep text).getLastD []) _
            (fun t i l' h => ih t i l' h) (pySplit sep text) [] [] 0 idx l
            (by intro c hc; simp at hc) rfl (by omega) hok

/-- C3 as stated is false: chunks produced by buffers re-seeded with
overlap text can exceed `chunk_size` even though no atomic (separator-free)
unit of the input does. With `chunk_size = 10`, `chunk_overlap = 5`, the
text `"aaaaaaa bbbbbbb ccccccc"` — whose space-separated atomic units all
have length ≤ 10 — produces the chunk `"aaaa bbbbbbb "` of length 13. -/
theorem c3_counterexample :
    chunkTextRecursive "aaaaaaa bbbbbbb ccccccc".toList 10 5 [] =
      .ok [mkChunk "aaaaaaa ".toList [] 0,
           mkChunk "aaaa bbbbbbb ".toList [] 1,
           mkChunk "bbbb ccccccc".toList [] 2] ∧
    10 < "aaaa bbbbbbb ".toList.length ∧
    ((pySplit " ".toList "aaaaaaa bbbbbbb ccccccc".toList).all
      (fun w => decide (w.length ≤ 10))) = true := by
  refine ⟨by rfl, by decide, by rfl⟩

/-- C3 amended: on every successful run of the recursive strategy every
emitted chunk has `len(text) ≤ chunk_size + chunk_overlap` (the overlap
re-seeding can push a buffer up to `chunk_overlap` characters past
`chunk_size`, so the bound claimed by the spec holds only up to that
slack; an atomic unit longer than `chunk_size` never yields an oversized
chunk, because the empty-string separator raises `ValueError` first, so the
run is not successful). -/
theorem c3_recursive_chunk_size_bound (text : List Char) (cs co : Nat) (md : MDict)
    (l : List Chunk) (h : chunkTextRecursive text cs co md = .ok l) :
    ∀ c ∈ l, c.text.length ≤ cs + co :=
  recChunk_bound cs co md separatorHierarchy text 0 l h

/-- Witness for `c3_recursive_chunk_size_bound`: the oversized chunk of the
counterexample run still respects the amended `chunk_size + chunk_overlap`
bound. -/
theorem c3_witness :
    chunkTextRecursive "aaaaaaa bbbbbbb ccccccc".toList 10 5 [] =
      .ok [mkChunk "aaaaaaa ".toList [] 0,
           mkChunk "aaaa bbbbbbb ".toList [] 1,
           mkChunk "bbbb ccccccc".toList [] 2] ∧
    (mkChunk "aaaa bbbbbbb ".toList [] 1).text.length ≤ 10 + 5 := by
  refine ⟨by rfl, ?_⟩
  exact c3_recursive_chunk_size_bound "aaaaaaa bbbbbbb ccccccc".toList 10 5 []
    [mkChunk "aaaaaaa ".toList [] 0, mkChunk "aaaa bbbbbbb ".toList [] 1,
     mkChunk "bbbb ccccccc".toList [] 2] (by rfl)
    (mkChunk "aaaa bbbbbbb ".toList [] 1) (by decide)

end RagSpec
